import Mathlib

/-!
Verification of the terminal-emulator core of cmlterm
(src/terminal_emulator/ansi.rs and src/terminal_emulator/mod.rs).

Bytes are modelled as natural numbers (only values < 256 ever occur in real
inputs, but nothing here depends on that bound).  Rust `usize` values are
modelled as `Nat` together with the constant `USIZE_MAX`; `usize` subtraction
is modelled as checked (it yields `none` on underflow, as a debug build
panics there), and fallible Rust code (assertions, panics, the
`unreachable!` arms) is modelled with `Option`, `none` meaning the program
aborts.
-/

/-- Rust `usize::MAX` on a 64-bit target. -/
def USIZE_MAX : Nat := 2 ^ 64 - 1

/-- ansi.rs: `enum SelectGraphicRendition`. -/
inductive SelectGraphicRendition where
  | Reset
  | Black
  | Red
  | Green
  | Yellow
  | Blue
  | Magenta
  | Cyan
  | White
  | BrightBlack
  | BrightRed
  | BrightGreen
  | BrightYellow
  | BrightBlue
  | BrightMagenta
  | BrightCyan
  | BrightWhite
  | Unknown (val : Nat)
deriving DecidableEq

/-- ansi.rs: `SelectGraphicRendition::from_usize`. -/
def SelectGraphicRendition.from_usize (val : Nat) : SelectGraphicRendition :=
  match val with
  | 0 => .Reset
  | 30 => .Black
  | 31 => .Red
  | 32 => .Green
  | 33 => .Yellow
  | 34 => .Blue
  | 35 => .Magenta
  | 36 => .Cyan
  | 37 => .White
  | 90 => .BrightBlack
  | 91 => .BrightRed
  | 92 => .BrightGreen
  | 93 => .BrightYellow
  | 94 => .BrightBlue
  | 95 => .BrightMagenta
  | 96 => .BrightCyan
  | 97 => .BrightWhite
  | v => .Unknown v

/-- ansi.rs: `enum TerminalOutput`. -/
inductive TerminalOutput where
  | SetCursorPos (x y : Option Nat)
  | ClearForwards
  | ClearBackwards
  | ClearAll
  | Sgr (s : SelectGraphicRendition)
  | Data (d : List Nat)
  | Invalid
deriving DecidableEq

/-- ansi.rs: `enum CsiParserState`. -/
inductive CsiParserState where
  | Params
  | Intermediates
  | Finished (b : Nat)
  | Invalid
  | InvalidFinished
deriving DecidableEq

/-- ansi.rs: `is_csi_terminator` (0x40..=0x7d). -/
def is_csi_terminator (b : Nat) : Bool := decide (0x40 ≤ b ∧ b ≤ 0x7d)

/-- ansi.rs: `is_csi_param` (0x30..=0x3f). -/
def is_csi_param (b : Nat) : Bool := decide (0x30 ≤ b ∧ b ≤ 0x3f)

/-- ansi.rs: `is_csi_intermediate` (0x20..=0x2f). -/
def is_csi_intermediate (b : Nat) : Bool := decide (0x20 ≤ b ∧ b ≤ 0x2f)

/-- ansi.rs: `struct CsiParser`. -/
structure CsiParser where
  state : CsiParserState
  params : List Nat
  intermediates : List Nat
deriving DecidableEq

/-- ansi.rs: `CsiParser::new`. -/
def CsiParser.new : CsiParser := ⟨.Params, [], []⟩

/-- ansi.rs: `CsiParser::push`.  The source panics when the parser is already
in a finished state (and the `Finished`/`InvalidFinished` match arms are
`unreachable!`); both are modelled as `none`. -/
def CsiParser.push (c : CsiParser) (b : Nat) : Option CsiParser :=
  match c.state with
  | .Finished _ => none
  | .InvalidFinished => none
  | .Params =>
      if is_csi_param b then some { c with params := c.params ++ [b] }
      else if is_csi_intermediate b then
        some { c with intermediates := c.intermediates ++ [b], state := .Intermediates }
      else if is_csi_terminator b then some { c with state := .Finished b }
      else some { c with state := .Invalid }
  | .Intermediates =>
      if is_csi_param b then some { c with state := .Invalid }
      else if is_csi_intermediate b then some { c with intermediates := c.intermediates ++ [b] }
      else if is_csi_terminator b then some { c with state := .Finished b }
      else some { c with state := .Invalid }
  | .Invalid =>
      if is_csi_terminator b then some { c with state := .InvalidFinished }
      else some c

/-- Rust `slice::split(|b| *b == sep)`: splits on every separator occurrence,
always yielding one piece more than the number of separators (so the empty
slice yields one empty piece, and a trailing separator yields a trailing
empty piece). -/
def splitSep (sep : Nat) : List Nat → List (List Nat)
  | [] => [[]]
  | b :: rest =>
    match splitSep sep rest with
    | [] => [[]]
    | h :: t => if b = sep then [] :: h :: t else (b :: h) :: t

def is_ascii_digit (b : Nat) : Bool := decide (0x30 ≤ b ∧ b ≤ 0x39)

/-- Value of a big-endian list of ASCII decimal digit bytes. -/
def decimal_value (bs : List Nat) : Nat := bs.foldl (fun acc b => acc * 10 + (b - 0x30)) 0

/-- ansi.rs: `parse_param_as_usize`.  The outer `Option` is the Rust
`Result` (`none` = parse error); the inner one is the "empty parameter"
case.  `str::parse::<usize>` succeeds exactly on non-empty all-digit
strings whose value fits in `usize` (a leading `+` is also accepted by
Rust, but `+` is not a CSI parameter byte so it can never occur here). -/
def parse_param_as_usize (param_bytes : List Nat) : Option (Option Nat) :=
  if param_bytes = [] then some none
  else if param_bytes.all is_ascii_digit ∧ decimal_value param_bytes ≤ USIZE_MAX then
    some (some (decimal_value param_bytes))
  else none

/-- Rust `Iterator::collect::<Result<Vec<_>, _>>` over an `Option`-valued map:
the first failure fails the whole list. -/
def mapOption {α β : Type} (f : α → Option β) : List α → Option (List β)
  | [] => some []
  | a :: rest =>
    match f a with
    | none => none
    | some b =>
      match mapOption f rest with
      | none => none
      | some bs => some (b :: bs)

/-- ansi.rs: `split_params_into_semicolon_delimited_usize`. -/
def split_params_into_semicolon_delimited_usize (params : List Nat) :
    Option (List (Option Nat)) :=
  mapOption parse_param_as_usize (splitSep 0x3b params)

/-- ansi.rs: `extract_param` (`params.get(idx).copied().flatten()`). -/
def extract_param (idx : Nat) (params : List (Option Nat)) : Option Nat :=
  params.getD idx none

/-- ansi.rs: `enum AnsiParserInner`. -/
inductive AnsiParserInner where
  | Empty
  | Escape
  | Csi (c : CsiParser)
deriving DecidableEq

/-- The body of the `AnsiParserInner::Csi` arm of `AnsiParser::push` after
`parser.push(*b)` has run: the driver inspects the sub-parser state and
either emits the finished sequence's operations (resetting to `Empty`),
emits `Invalid` (on a finished-but-unknown terminator, an unparsable
parameter list, or on the sub-state having just become `Invalid`), or keeps
accumulating.  Terminator bytes: 0x48 = H, 0x47 = G, 0x4a = J, 0x6d = m. -/
def handle_csi (c : CsiParser) : AnsiParserInner × List TerminalOutput :=
  match c.state with
  | .Finished 0x48 =>
      match split_params_into_semicolon_delimited_usize c.params with
      | none => (.Empty, [.Invalid])
      | some params =>
          (.Empty, [.SetCursorPos (some ((extract_param 0 params).getD 1))
                                  (some ((extract_param 1 params).getD 1))])
  | .Finished 0x47 =>
      match parse_param_as_usize c.params with
      | none => (.Empty, [.Invalid])
      | some param => (.Empty, [.SetCursorPos (some (param.getD 1)) none])
  | .Finished 0x4a =>
      match parse_param_as_usize c.params with
      | none => (.Empty, [.Invalid])
      | some param =>
          (.Empty, [match param.getD 0 with
                    | 0 => .ClearForwards
                    | 1 => .ClearBackwards
                    | 2 => .ClearAll
                    | 3 => .ClearAll
                    | _ => .Invalid])
  | .Finished 0x6d =>
      match split_params_into_semicolon_delimited_usize c.params with
      | none => (.Empty, [.Invalid])
      | some params0 =>
          let params1 := if params0 = [] then [some 0] else params0
          let params2 := if params1 = [none] then [some 0] else params1
          (.Empty, params2.filterMap
            (fun p => p.map (fun v => TerminalOutput.Sgr (SelectGraphicRendition.from_usize v))))
  | .Finished _ => (.Empty, [.Invalid])
  | .Invalid => (.Empty, [.Invalid])
  | _ => (.Csi c, [])

/-- One iteration of the byte loop of `AnsiParser::push`: `pend` is the
local `data_output` accumulator of pending literal bytes.  Returns the new
inner state, the new pending run, and the operations emitted for this
byte (`none` models the panic inside `CsiParser::push`). -/
def step_byte (i : AnsiParserInner) (pend : List Nat) (b : Nat) :
    Option (AnsiParserInner × List Nat × List TerminalOutput) :=
  match i with
  | .Empty =>
      if b = 0x1b then some (.Escape, pend, [])
      else some (.Empty, pend ++ [b], [])
  | .Escape =>
      let flushed : List TerminalOutput := if pend = [] then [] else [.Data pend]
      if b = 0x5b then some (.Csi CsiParser.new, [], flushed)
      else some (.Empty, [], flushed)
  | .Csi c =>
      match c.push b with
      | none => none
      | some c2 =>
          let r := handle_csi c2
          some (r.1, pend, r.2)

/-- Totalised `step_byte` (the defaulted value is irrelevant: on every state
the driver actually reaches, `step_byte` succeeds — see
`step_byte_eq_total`). -/
def step_byteT (i : AnsiParserInner) (pend : List Nat) (b : Nat) :
    AnsiParserInner × List Nat × List TerminalOutput :=
  (step_byte i pend b).getD (i, pend, [])

/-- The byte loop of `AnsiParser::push`, without the final flush of the
pending literal run. -/
def proc_bytes : AnsiParserInner → List Nat → List Nat →
    Option (AnsiParserInner × List Nat × List TerminalOutput)
  | i, pend, [] => some (i, pend, [])
  | i, pend, b :: rest =>
    match step_byte i pend b with
    | none => none
    | some (i1, p1, o1) =>
      match proc_bytes i1 p1 rest with
      | none => none
      | some (i2, p2, o2) => some (i2, p2, o1 ++ o2)

/-- Totalised `proc_bytes`. -/
def proc_bytesT : AnsiParserInner → List Nat → List Nat →
    AnsiParserInner × List Nat × List TerminalOutput
  | i, pend, [] => (i, pend, [])
  | i, pend, b :: rest =>
    let s := step_byteT i pend b
    let r := proc_bytesT s.1 s.2.1 rest
    (r.1, r.2.1, s.2.2 ++ r.2.2)

/-- The flush of the pending literal run at the end of `AnsiParser::push`. -/
def flush_ops (pend : List Nat) : List TerminalOutput :=
  if pend = [] then [] else [.Data pend]

/-- ansi.rs: `AnsiParser::push` — the parser state is `AnsiParserInner`
(the single field of `AnsiParser`); returns the updated state together
with the emitted operations. -/
def AnsiParser.push (i : AnsiParserInner) (bytes : List Nat) :
    Option (AnsiParserInner × List TerminalOutput) :=
  match proc_bytes i [] bytes with
  | none => none
  | some (i2, p2, ops) => some (i2, ops ++ flush_ops p2)

/-- Totalised `AnsiParser.push`. -/
def pushT (i : AnsiParserInner) (bytes : List Nat) : AnsiParserInner × List TerminalOutput :=
  let r := proc_bytesT i [] bytes
  (r.1, r.2.2 ++ flush_ops r.2.1)

/-- Successive `AnsiParser::push` calls on one parser, one call per chunk,
concatenating the emitted operations. -/
def push_chunks : AnsiParserInner → List (List Nat) →
    Option (AnsiParserInner × List TerminalOutput)
  | i, [] => some (i, [])
  | i, c :: rest =>
    match AnsiParser.push i c with
    | none => none
    | some (i1, o1) =>
      match push_chunks i1 rest with
      | none => none
      | some (i2, o2) => some (i2, o1 ++ o2)

/-- Totalised `push_chunks`. -/
def push_chunksT : AnsiParserInner → List (List Nat) → AnsiParserInner × List TerminalOutput
  | i, [] => (i, [])
  | i, c :: rest =>
    let r1 := pushT i c
    let r2 := push_chunksT r1.1 rest
    (r2.1, r1.2 ++ r2.2)

/-- A token of the flattened operation stream: `Data` operations are
exploded into their constituent bytes, every other operation is kept as
is.  Two operation lists with the same flattening are equal up to the
coalescing of adjacent `Data` runs. -/
inductive OutToken where
  | byte (b : Nat)
  | op (o : TerminalOutput)
deriving DecidableEq

/-- Flatten an operation list into its token stream. -/
def flattenOps : List TerminalOutput → List OutToken
  | [] => []
  | .Data d :: rest => d.map .byte ++ flattenOps rest
  | o :: rest => .op o :: flattenOps rest

/-- The inner states the driver can actually hold a CSI sub-parser in:
finished sub-states are consumed (and the sub-parser discarded) in the very
step that produces them. -/
def goodInner : AnsiParserInner → Prop
  | .Csi c => c.state = .Params ∨ c.state = .Intermediates
  | _ => True

/-- Join byte-string fields with a separator byte (the inverse image of
`splitSep`). -/
def joinSep (sep : Nat) : List (List Nat) → List Nat
  | [] => []
  | [f] => f
  | f :: g :: rest => f ++ sep :: joinSep sep (g :: rest)

/-- mod.rs: `enum TerminalColor`. -/
inductive TerminalColor where
  | Default
  | Black
  | Red
  | Green
  | Yellow
  | Blue
  | Magenta
  | Cyan
  | White
deriving DecidableEq

/-- mod.rs: `TerminalColor::from_sgr`. -/
def TerminalColor.from_sgr : SelectGraphicRendition → Option TerminalColor
  | .Reset => some .Default
  | .Black => some .Black
  | .Red => some .Red
  | .Green => some .Green
  | .Yellow => some .Yellow
  | .Blue => some .Blue
  | .Magenta => some .Magenta
  | .Cyan => some .Cyan
  | .White => some .White
  | _ => none

/-- mod.rs: `struct CursorState`. -/
structure CursorState where
  x : Nat
  y : Nat
  color : TerminalColor
deriving DecidableEq

/-- mod.rs: `update_cursor` (byte 10 is the newline). -/
def update_cursor (incoming : List Nat) (cursor : CursorState) : CursorState :=
  incoming.foldl
    (fun cur c =>
      if c = 10 then { cur with x := 0, y := cur.y + 1 }
      else { cur with x := cur.x + 1 })
    cursor

/-- mod.rs: `cursor_to_buffer_position`. -/
def cursor_to_buffer_position (cursor_pos : CursorState) (buf : List Nat) : Nat :=
  ((splitSep 10 buf).take cursor_pos.y).foldl (fun acc item => acc + item.length + 1) 0
    + cursor_pos.x

/-- mod.rs: `insert_data_at_position`; `none` models the failure of the
`assert!(pos <= buf.len())`.  The in-place `copy_from_slice` over
`buf[pos..pos + data_to_copy.len()]` is written as take/drop surgery. -/
def insert_data_at_position (data : List Nat) (pos : Nat) (buf : List Nat) :
    Option (List Nat) :=
  if pos ≤ buf.length then
    if buf.length ≤ pos then some (buf ++ data)
    else
      let amount_that_fits := buf.length - pos
      let data_to_copy := if data.length < amount_that_fits then data
                          else data.take amount_that_fits
      let data_to_push := if data.length < amount_that_fits then []
                          else data.drop amount_that_fits
      some (buf.take pos ++ data_to_copy ++ buf.drop (pos + data_to_copy.length)
            ++ data_to_push)
  else none

/-- mod.rs: `ranges_overlap`.  A range is a `(start, end)` pair of offsets,
half-open. -/
def ranges_overlap (a b : Nat × Nat) : Bool :=
  if a.2 ≤ b.1 then false
  else if b.2 ≤ a.1 then false
  else true

/-- mod.rs: `range_fully_conatins` (source spelling): `a` contains `b`. -/
def range_fully_conatins (a b : Nat × Nat) : Bool :=
  decide (a.1 ≤ b.1 ∧ b.2 ≤ a.2)

/-- mod.rs: `range_starts_overlapping` (`a.start > b.start && a.end > b.end`). -/
def range_starts_overlapping (a b : Nat × Nat) : Bool :=
  decide (b.1 < a.1 ∧ b.2 < a.2)

/-- mod.rs: `range_ends_overlapping`. -/
def range_ends_overlapping (a b : Nat × Nat) : Bool :=
  range_starts_overlapping b a

/-- mod.rs: `struct ColorTag`.  The Rust field `end` is called `stop` here
(`end` is a Lean keyword). -/
structure ColorTag where
  start : Nat
  stop : Nat
  color : TerminalColor
deriving DecidableEq

/-- mod.rs: `struct ColorRangeAdjustment`. -/
structure ColorRangeAdjustment where
  should_delete : Bool
  to_insert : Option ColorTag
deriving DecidableEq

/-- mod.rs: `adjust_existing_color_range`.  Returns the mutated tag together
with the adjustment record; `none` models the `panic!` of the unhandled
overlap case.  As in the source, `should_delete` in the containment case is
decided on the tag's start before mutation (which leaves `start` unchanged
anyway), and `to_insert` uses the tag's end before it is pulled back. -/
def adjust_existing_color_range (existing_elem : ColorTag) (range : Nat × Nat) :
    Option (ColorTag × ColorRangeAdjustment) :=
  let existing_range := (existing_elem.start, existing_elem.stop)
  if range_fully_conatins range existing_range then
    some (existing_elem, ⟨true, none⟩)
  else if range_fully_conatins existing_range range then
    let del := decide (existing_elem.start = range.1)
    let ins := if range.2 ≠ existing_elem.stop then
        some ⟨range.2, existing_elem.stop, existing_elem.color⟩ else none
    some ({ existing_elem with stop := range.1 }, ⟨del, ins⟩)
  else if range_starts_overlapping range existing_range then
    let e2 := { existing_elem with stop := range.1 }
    some (e2, ⟨decide (e2.start = e2.stop), none⟩)
  else if range_ends_overlapping range existing_range then
    let e2 := { existing_elem with start := range.2 }
    some (e2, ⟨decide (e2.start = e2.stop), none⟩)
  else none

/-- One tag of the `iter_mut` loop in `adjust_existing_color_ranges`:
tags overlapping the new range are adjusted, the others are untouched. -/
def adjust_step (range : Nat × Nat) (t : ColorTag) :
    Option (ColorTag × ColorRangeAdjustment) :=
  if ranges_overlap (t.start, t.stop) range then adjust_existing_color_range t range
  else some (t, ⟨false, none⟩)

/-- mod.rs: `adjust_existing_color_ranges`.  `delete_items_from_vec` removes
the collected indices in descending order, which keeps exactly the
entries not flagged for deletion, in their original order; the collected
`to_insert` tags are then appended in iteration order. -/
def adjust_existing_color_ranges (existing : List ColorTag) (range : Nat × Nat) :
    Option (List ColorTag) :=
  match mapOption (adjust_step range) existing with
  | none => none
  | some results =>
    some ((results.filterMap fun r => if r.2.should_delete then none else some r.1)
      ++ results.filterMap fun r => r.2.to_insert)

/-- Sorting key of `self.color_info.sort_by(|a, b| a.start.cmp(&b.start))`. -/
def tagLE (a b : ColorTag) : Prop := a.start ≤ b.start

instance : DecidableRel tagLE := fun a b => Nat.decLe a.start b.start

instance : IsTotal ColorTag tagLE := ⟨fun a b => Nat.le_total a.start b.start⟩

instance : IsTrans ColorTag tagLE := ⟨fun _ _ _ h1 h2 => Nat.le_trans h1 h2⟩

/-- mod.rs: `struct ColorTracker`. -/
structure ColorTracker where
  color_info : List ColorTag
deriving DecidableEq

/-- mod.rs: `ColorTracker::new`. -/
def ColorTracker.new : ColorTracker := ⟨[⟨0, USIZE_MAX, .Default⟩]⟩

/-- mod.rs: `ColorTracker::push_range` (`sort_by` on a stable sort by start
is insertion sort by `tagLE`). -/
def ColorTracker.push_range (ct : ColorTracker) (cursor_color : TerminalColor)
    (range : Nat × Nat) : Option ColorTracker :=
  match adjust_existing_color_ranges ct.color_info range with
  | none => none
  | some tags =>
    some ⟨List.insertionSort tagLE (tags ++ [⟨range.1, range.2, cursor_color⟩])⟩

/-- The loop body of `ColorTracker::colors`: every tag's displayed end is
the next tag's start, the last tag's is `usize::MAX`. -/
def colorsAux : List ColorTag → List ((Nat × Nat) × TerminalColor)
  | [] => []
  | [t] => [((t.start, USIZE_MAX), t.color)]
  | t :: u :: rest => ((t.start, u.start), t.color) :: colorsAux (u :: rest)

/-- mod.rs: `ColorTracker::colors`. -/
def ColorTracker.colors (ct : ColorTracker) : List ((Nat × Nat) × TerminalColor) :=
  colorsAux ct.color_info

/-- Apply a list of `push_range` calls in order. -/
def run_pushes : ColorTracker → List (TerminalColor × Nat × Nat) → Option ColorTracker
  | ct, [] => some ct
  | ct, (c, r) :: rest =>
    match ct.push_range c r with
    | none => none
    | some ct2 => run_pushes ct2 rest

/-- `coversFrom s out`: the range list `out` starts at offset `s`, each
range's end is the next range's start, and the last range ends at
`usize::MAX` — a gapless cover of `[s, usize::MAX)`. -/
def coversFrom : Nat → List ((Nat × Nat) × TerminalColor) → Prop
  | s, [] => s = USIZE_MAX
  | s, [(r, _)] => r.1 = s ∧ r.2 = USIZE_MAX
  | s, (r, _) :: rc :: rest => r.1 = s ∧ coversFrom r.2 ((rc :: rest))

/-- mod.rs: `struct TerminalEmulator` (the `fd` field, which belongs to the
external channel, is omitted; `output_buf` is the `AnsiParser`). -/
structure TerminalEmulator where
  output_buf : AnsiParserInner
  buf : List Nat
  color_tracker : ColorTracker
  cursor_pos : CursorState
deriving DecidableEq

/-- mod.rs: `TerminalEmulator::new` (minus the shell spawn). -/
def TerminalEmulator.new : TerminalEmulator :=
  ⟨.Empty, [], ColorTracker.new, ⟨0, 0, .Default⟩⟩

/-- One arm of the `for segment in parsed` match of `TerminalEmulator::read`.
`none` models a panic: the failed insertion assert, a `usize` underflow in
`x - 1` / `y - 1` (`SetCursorPos` is 1-based), an out-of-bounds slice in
the clear operations, or an unhandled color-range overlap. -/
def apply_output (st : TerminalEmulator) : TerminalOutput → Option TerminalEmulator
  | .Data data =>
      let output_start := cursor_to_buffer_position st.cursor_pos st.buf
      match insert_data_at_position data output_start st.buf with
      | none => none
      | some buf2 =>
        match st.color_tracker.push_range st.cursor_pos.color
            (output_start, output_start + data.length) with
        | none => none
        | some ct2 =>
          some { st with buf := buf2, color_tracker := ct2,
                         cursor_pos := update_cursor data st.cursor_pos }
  | .SetCursorPos x y =>
      match (match x with
             | none => some st
             | some xv =>
               if xv = 0 then none
               else some { st with cursor_pos := { st.cursor_pos with x := xv - 1 } }) with
      | none => none
      | some st1 =>
        match y with
        | none => some st1
        | some yv =>
          if yv = 0 then none
          else some { st1 with cursor_pos := { st1.cursor_pos with y := yv - 1 } }
  | .ClearForwards =>
      let buf_pos := cursor_to_buffer_position st.cursor_pos st.buf
      match st.color_tracker.push_range st.cursor_pos.color (buf_pos, USIZE_MAX) with
      | none => none
      | some ct2 =>
        if buf_pos ≤ st.buf.length then
          some { st with color_tracker := ct2, buf := st.buf.take buf_pos }
        else none
  | .ClearBackwards =>
      let buf_pos := cursor_to_buffer_position st.cursor_pos st.buf
      if buf_pos ≤ st.buf.length then some { st with buf := st.buf.drop buf_pos }
      else none
  | .ClearAll =>
      match st.color_tracker.push_range st.cursor_pos.color (0, USIZE_MAX) with
      | none => none
      | some ct2 => some { st with color_tracker := ct2, buf := [] }
  | .Sgr sgr =>
      match TerminalColor.from_sgr sgr with
      | some color => some { st with cursor_pos := { st.cursor_pos with color := color } }
      | none => some st
  | .Invalid => some st

/-- Apply the parsed operations in order. -/
def apply_outputs (st : TerminalEmulator) : List TerminalOutput → Option TerminalEmulator
  | [] => some st
  | op :: rest =>
    match apply_output st op with
    | none => none
    | some st2 => apply_outputs st2 rest

/-- mod.rs: one drained chunk of `TerminalEmulator::read`: the chunk is fed
to the parser (whose state is stored back) and every resulting operation is
applied in order. -/
def TerminalEmulator.read (st : TerminalEmulator) (incoming : List Nat) :
    Option TerminalEmulator :=
  match AnsiParser.push st.output_buf incoming with
  | none => none
  | some (inner2, parsed) => apply_outputs { st with output_buf := inner2 } parsed

/-! ## Claim theorems: concrete evaluations -/

/-- C9: for a fresh parser, ESC [ 3 2 ; 1 5 H yields the single operation
SetCursorPos x = 32, y = 15; ESC [ ; 3 2 H yields x = 1, y = 32; and
ESC [ H yields x = 1, y = 1 — the first parameter is x, the second y, and
each defaults to 1 when absent. -/
theorem c9_cursor_pos_examples :
    AnsiParser.push .Empty [27, 91, 51, 50, 59, 49, 53, 72]
      = some (.Empty, [.SetCursorPos (some 32) (some 15)]) ∧
    AnsiParser.push .Empty [27, 91, 59, 51, 50, 72]
      = some (.Empty, [.SetCursorPos (some 1) (some 32)]) ∧
    AnsiParser.push .Empty [27, 91, 72]
      = some (.Empty, [.SetCursorPos (some 1) (some 1)]) :=
  ⟨by decide, by decide, by decide⟩

/-- C6: on a fresh tracker, push_range Yellow [3,10) yields colors
[0,3) Default, [3,10) Yellow, [10,MAX) Default; a further push_range Blue
[5,7) splits the Yellow tag around a Blue one; a further push_range Red
[6,11) trims Blue to [5,6), deletes the Yellow tail and installs Red as
[6,11). -/
theorem c6_color_tracker_scenario :
    (ColorTracker.new.push_range .Yellow (3, 10)).map ColorTracker.colors
      = some [((0, 3), .Default), ((3, 10), .Yellow), ((10, USIZE_MAX), .Default)] ∧
    ((ColorTracker.new.push_range .Yellow (3, 10)).bind
        (fun t => t.push_range .Blue (5, 7))).map ColorTracker.colors
      = some [((0, 3), .Default), ((3, 5), .Yellow), ((5, 7), .Blue),
              ((7, 10), .Yellow), ((10, USIZE_MAX), .Default)] ∧
    (((ColorTracker.new.push_range .Yellow (3, 10)).bind
        (fun t => t.push_range .Blue (5, 7))).bind
        (fun t => t.push_range .Red (6, 11))).map ColorTracker.colors
      = some [((0, 3), .Default), ((3, 5), .Yellow), ((5, 6), .Blue),
              ((6, 11), .Red), ((11, USIZE_MAX), .Default)] :=
  ⟨by decide, by decide, by decide⟩

/-- C1, counterexample: the well-formed CSI cursor-position sequence
ESC [ 0 H parses to SetCursorPos x = Some 0, and applying it makes
`self.cursor_pos.x = x - 1` underflow `usize`: the emulator aborts
(`none`), refuting the claim that applying the parsed operations of any
byte stream never crashes, in particular for cursor sequences with a 0
parameter. -/
theorem c1_cursor_zero_param_panics :
    TerminalEmulator.read TerminalEmulator.new [27, 91, 48, 72] = none := by decide

/-- C3: the code violates its own insertion precondition.  From a fresh
emulator, ESC [ 2 H a parses to SetCursorPos x = Some 2 (cursor moves to
column 1 of an empty buffer) followed by Data "a"; the Data handler then
computes buffer offset 1 on a buffer of length 0, and
`insert_data_at_position`'s `assert!(pos <= buf.len())` fires: the fatal
assertion is reachable, contradicting the claim that every Data insertion
satisfies pos ≤ buf.len(). -/
theorem c3_insert_assert_reachable :
    cursor_to_buffer_position ⟨1, 0, .Default⟩ [] = 1 ∧
    insert_data_at_position [97] 1 [] = none ∧
    TerminalEmulator.read TerminalEmulator.new [27, 91, 50, 72, 97] = none :=
  ⟨by decide, by decide, by decide⟩

/-- C2, counterexample: pushing the stream "ab" as the two chunks "a", "b"
yields the two operations Data "a", Data "b", while pushing it in one call
yields the single operation Data "ab" — the operation sequences differ, so
chunk-boundary independence fails as literally stated (the literal run is
coalesced per push call, not per contiguous stretch). -/
theorem c2_split_data_ops_differ :
    push_chunks .Empty [[97], [98]] = some (.Empty, [.Data [97], .Data [98]]) ∧
    AnsiParser.push .Empty [97, 98] = some (.Empty, [.Data [97, 98]]) ∧
    [TerminalOutput.Data [97], .Data [98]] ≠ [.Data [97, 98]] :=
  ⟨by decide, by decide, by decide⟩

/-- C4, counterexample: pushing ESC [ - 2 3 ; H to a fresh parser produces
TWO operations, Invalid followed by Data "3;H", not exactly one: the
driver emits Invalid and resets to Idle the moment the CSI sub-state
becomes Invalid ('-' is an intermediate byte, so the following '2' is a
byte-class violation), and the remaining bytes are treated as literal
data. -/
theorem c4_invalid_csi_two_ops :
    AnsiParser.push .Empty [27, 91, 45, 50, 51, 59, 72]
      = some (.Empty, [.Invalid, .Data [51, 59, 72]]) ∧
    [TerminalOutput.Invalid, .Data [51, 59, 72]] ≠ [.Invalid] :=
  ⟨by decide, by decide⟩

/-- C5, counterexample: the SGR sequence ESC [ 1 ; m has the two parameters
"1" and "" (the split parameter list has length 2), but produces a single
operation Sgr (Unknown 1): the empty second parameter is skipped and yields
no operation, refuting "each parameter in the list independently yields
exactly one Sgr operation". -/
theorem c5_empty_param_skipped :
    AnsiParser.push .Empty [27, 91, 49, 59, 109]
      = some (.Empty, [.Sgr (.Unknown 1)]) ∧
    (split_params_into_semicolon_delimited_usize [49, 59]).map List.length = some 2 ∧
    ([TerminalOutput.Sgr (.Unknown 1)] : List TerminalOutput).length = 1 :=
  ⟨by decide, by decide, by decide⟩

/-- C8: for pos ≤ buf.len(), insertion never panics and the result is
buf[..pos] ++ data ++ the original suffix of buf beyond pos + data.len()
(so pos = buf.len() appends, an interior pos overwrites the overlapping
length and appends the remainder). -/
theorem c8_insert_data_spec (buf data : List Nat) (pos : Nat) (h : pos ≤ buf.length) :
    insert_data_at_position data pos buf
      = some (buf.take pos ++ data ++ buf.drop (pos + data.length)) := by
  unfold insert_data_at_position
  rw [if_pos h]
  by_cases h2 : buf.length ≤ pos
  · rw [if_pos h2]
    have he : pos = buf.length := Nat.le_antisymm h h2
    subst he
    rw [List.take_length, List.drop_eq_nil_of_le (by omega), List.append_nil]
  · rw [if_neg h2]
    push_neg at h2
    by_cases h3 : data.length < buf.length - pos
    · simp only [if_pos h3]
      rw [List.append_nil]
    · simp only [if_neg h3]
      push_neg at h3
      have hlen : (data.take (buf.length - pos)).length = buf.length - pos := by
        rw [List.length_take]; omega
      rw [hlen, show pos + (buf.length - pos) = buf.length by omega, List.drop_length,
          List.drop_eq_nil_of_le (show buf.length ≤ pos + data.length by omega),
          List.append_nil, List.append_nil, List.append_assoc,
          List.take_append_drop]

/-- C8, witness: inserting "asdf" at offset 2 of the 4-byte buffer "1234"
(the overwrite-and-extend case of the source's own unit test). -/
theorem c8_insert_data_spec_witness :
    insert_data_at_position [97, 115, 100, 102] 2 [49, 50, 51, 52]
      = some ([49, 50, 51, 52].take 2 ++ [97, 115, 100, 102]
              ++ [49, 50, 51, 52].drop (2 + [97, 115, 100, 102].length)) :=
  c8_insert_data_spec [49, 50, 51, 52] [97, 115, 100, 102] 2 (by decide)

/-- C10: applying ClearBackwards replaces the buffer with its suffix from
the cursor's current offset (the retained bytes shift down to offset 0)
and leaves the color tracker's tag set, the cursor and the parser state
unchanged.  The hypothesis is the in-bounds condition of the
`self.buf[buf_pos..]` slice. -/
theorem c10_clear_backwards_effect (st : TerminalEmulator)
    (h : cursor_to_buffer_position st.cursor_pos st.buf ≤ st.buf.length) :
    ∃ st2, apply_output st .ClearBackwards = some st2 ∧
      st2.buf = st.buf.drop (cursor_to_buffer_position st.cursor_pos st.buf) ∧
      st2.color_tracker = st.color_tracker ∧
      st2.cursor_pos = st.cursor_pos ∧
      st2.output_buf = st.output_buf := by
  refine ⟨{ st with buf := st.buf.drop (cursor_to_buffer_position st.cursor_pos st.buf) },
          ?_, rfl, rfl, rfl, rfl⟩
  unfold apply_output
  rw [if_pos h]

/-- C10, witness: a cursor at column 1 of the 3-byte buffer "abc". -/
theorem c10_clear_backwards_effect_witness :
    ∃ st2,
      apply_output ⟨.Empty, [97, 98, 99], ColorTracker.new, ⟨1, 0, .Default⟩⟩
          .ClearBackwards = some st2 ∧
      st2.buf = (⟨.Empty, [97, 98, 99], ColorTracker.new, ⟨1, 0, .Default⟩⟩ :
          TerminalEmulator).buf.drop
          (cursor_to_buffer_position ⟨1, 0, .Default⟩ [97, 98, 99]) ∧
      st2.color_tracker = ColorTracker.new ∧
      st2.cursor_pos = ⟨1, 0, .Default⟩ ∧
      st2.output_buf = .Empty :=
  c10_clear_backwards_effect ⟨.Empty, [97, 98, 99], ColorTracker.new, ⟨1, 0, .Default⟩⟩
    (by decide)

/-! ## Parser totality: the panic inside CsiParser::push is unreachable
from the driver -/

theorem csi_push_good_state (c : CsiParser) (b : Nat)
    (h : c.state = .Params ∨ c.state = .Intermediates) :
    ∃ c2, c.push b = some c2 ∧
      (c2.state = .Params ∨ c2.state = .Intermediates ∨
       (∃ t, c2.state = .Finished t) ∨ c2.state = .Invalid) := by
  unfold CsiParser.push
  rcases h with h | h <;> rw [h] <;> dsimp only <;> split_ifs <;>
    exact ⟨_, rfl, by simp [h]⟩

theorem handle_csi_good (c : CsiParser)
    (h : c.state = .Params ∨ c.state = .Intermediates ∨
         (∃ t, c.state = .Finished t) ∨ c.state = .Invalid) :
    goodInner (handle_csi c).1 := by
  rcases c with ⟨s, ps, ints⟩
  dsimp only at h ⊢
  cases s with
  | Params => exact Or.inl rfl
  | Intermediates => exact Or.inr rfl
  | Invalid => trivial
  | InvalidFinished => rcases h with h | h | ⟨t, h⟩ | h <;> simp_all
  | Finished t =>
      simp only [handle_csi]
      split <;> first
        | trivial
        | (split <;> trivial)
        | (rename_i hf hi; exact absurd rfl (hf t))

theorem step_byte_total (i : AnsiParserInner) (pend : List Nat) (b : Nat)
    (h : goodInner i) :
    ∃ r, step_byte i pend b = some r ∧ goodInner r.1 := by
  cases i with
  | Empty =>
      unfold step_byte
      by_cases hb : b = 0x1b <;> simp [hb, goodInner]
  | Escape =>
      unfold step_byte
      by_cases hb : b = 0x5b <;> simp [hb, goodInner, CsiParser.new]
  | Csi c =>
      obtain ⟨c2, hc2, hgood2⟩ := csi_push_good_state c b h
      refine ⟨((handle_csi c2).1, pend, (handle_csi c2).2), ?_, handle_csi_good c2 hgood2⟩
      unfold step_byte
      dsimp only
      rw [hc2]

theorem proc_bytes_total (bytes : List Nat) :
    ∀ (i : AnsiParserInner) (pend : List Nat), goodInner i →
      ∃ r, proc_bytes i pend bytes = some r ∧ goodInner r.1 := by
  induction bytes with
  | nil => intro i pend h; exact ⟨(i, pend, []), rfl, h⟩
  | cons b rest ih =>
      intro i pend h
      obtain ⟨⟨i1, p1, o1⟩, hs, hgood⟩ := step_byte_total i pend b h
      obtain ⟨⟨i2, p2, o2⟩, hr, hrgood⟩ := ih i1 p1 hgood
      refine ⟨(i2, p2, o1 ++ o2), ?_, hrgood⟩
      unfold proc_bytes
      rw [hs]
      dsimp only
      rw [hr]

theorem ansi_push_total (bytes : List Nat) (i : AnsiParserInner) (h : goodInner i) :
    ∃ r, AnsiParser.push i bytes = some r := by
  obtain ⟨⟨i2, p2, ops⟩, hr, _⟩ := proc_bytes_total bytes i [] h
  refine ⟨(i2, ops ++ flush_ops p2), ?_⟩
  unfold AnsiParser.push
  rw [hr]

/-- C1, amended: the parser itself never crashes — pushing any byte stream
to a fresh AnsiParser succeeds (the panic inside CsiParser::push is
unreachable from the driver) — and a malformed or unknown sequence's
effect is at worst dropped: applying the Invalid operation is a pure no-op
on the terminal state (buffer, cursor, color tracker and parser state all
unchanged).  The full claim is refuted by `c1_cursor_zero_param_panics`:
applying the operations of a well-formed cursor-position sequence with a 0
parameter crashes on a usize underflow. -/
theorem c1_invalid_noop_and_parser_total :
    (∀ bytes : List Nat, ∃ r, AnsiParser.push .Empty bytes = some r) ∧
    (∀ st : TerminalEmulator, apply_output st .Invalid = some st) :=
  ⟨fun bytes => ansi_push_total bytes .Empty trivial, fun _ => rfl⟩

/-- C4, amended: in the Invalid sub-state the CsiParser discards every
non-terminator byte and a terminator byte (0x40-0x7D) moves it to
InvalidFinished; however the driver emits one Invalid operation and resets
to Idle as soon as the sub-state becomes Invalid (so InvalidFinished is
never consulted), and pushing ESC [ - 2 3 ; H to a fresh parser produces
exactly the two operations Invalid, Data "3;H". -/
theorem c4_invalid_state_discard_and_driver_reset :
    (∀ (c : CsiParser) (b : Nat), c.state = .Invalid → is_csi_terminator b = false →
        c.push b = some c) ∧
    (∀ (c : CsiParser) (b : Nat), c.state = .Invalid → is_csi_terminator b = true →
        c.push b = some { c with state := .InvalidFinished }) ∧
    (∀ (c c2 : CsiParser) (pend : List Nat) (b : Nat),
        c.push b = some c2 → c2.state = .Invalid →
        step_byte (.Csi c) pend b = some (.Empty, pend, [.Invalid])) ∧
    AnsiParser.push .Empty [27, 91, 45, 50, 51, 59, 72]
      = some (.Empty, [.Invalid, .Data [51, 59, 72]]) := by
  refine ⟨?_, ?_, ?_, by decide⟩
  · intro c b hs ht
    unfold CsiParser.push
    rw [hs, ht]
    rfl
  · intro c b hs ht
    unfold CsiParser.push
    rw [hs, ht]
    rfl
  · intro c c2 pend b hp hs
    unfold step_byte
    dsimp only
    rw [hp]
    dsimp only
    have hh : handle_csi c2 = (.Empty, [.Invalid]) := by
      unfold handle_csi
      rw [hs]
    rw [hh]

/-- C4, witness: the sub-parser in the Invalid state discards 'a' (97) and
finishes on 'H' (72); the driver resets and emits Invalid the moment the
sub-state turns Invalid (parameter byte '2' after intermediate byte '-'). -/
theorem c4_invalid_state_discard_and_driver_reset_witness :
    (⟨.Invalid, [], []⟩ : CsiParser).push 48 = some ⟨.Invalid, [], []⟩ ∧
    (⟨.Invalid, [], []⟩ : CsiParser).push 72 = some ⟨.InvalidFinished, [], []⟩ ∧
    step_byte (.Csi ⟨.Intermediates, [], [45]⟩) [] 50 = some (.Empty, [], [.Invalid]) :=
  ⟨c4_invalid_state_discard_and_driver_reset.1 ⟨.Invalid, [], []⟩ 48 rfl (by decide),
   c4_invalid_state_discard_and_driver_reset.2.1 ⟨.Invalid, [], []⟩ 72 rfl (by decide),
   c4_invalid_state_discard_and_driver_reset.2.2.1 ⟨.Intermediates, [], [45]⟩
     ⟨.Invalid, [], [45]⟩ [] 50 (by decide) rfl⟩

theorem step_byte_eq_T (i : AnsiParserInner) (pend : List Nat) (b : Nat)
    (h : goodInner i) :
    step_byte i pend b = some (step_byteT i pend b) ∧
      goodInner (step_byteT i pend b).1 := by
  obtain ⟨r, hr, hg⟩ := step_byte_total i pend b h
  have ht : step_byteT i pend b = r := by unfold step_byteT; rw [hr]; rfl
  rw [ht]
  exact ⟨hr, hg⟩

theorem proc_bytes_eq_T (bytes : List Nat) :
    ∀ (i : AnsiParserInner) (pend : List Nat), goodInner i →
      proc_bytes i pend bytes = some (proc_bytesT i pend bytes) ∧
        goodInner (proc_bytesT i pend bytes).1 := by
  induction bytes with
  | nil => intro i pend h; exact ⟨rfl, h⟩
  | cons b rest ih =>
      intro i pend h
      obtain ⟨hstep, hg⟩ := step_byte_eq_T i pend b h
      obtain ⟨hrest, hg2⟩ := ih (step_byteT i pend b).1 (step_byteT i pend b).2.1 hg
      constructor
      · unfold proc_bytes
        rw [hstep]
        dsimp only
        rw [hrest]
        rfl
      · simpa [proc_bytesT] using hg2

theorem ansi_push_eq_T (bytes : List Nat) (i : AnsiParserInner) (h : goodInner i) :
    AnsiParser.push i bytes = some (pushT i bytes) := by
  obtain ⟨hp, _⟩ := proc_bytes_eq_T bytes i [] h
  unfold AnsiParser.push pushT
  rw [hp]

theorem proc_bytesT_append (xs ys : List Nat) : ∀ (i : AnsiParserInner) (p : List Nat),
    proc_bytesT i p (xs ++ ys) =
      ((proc_bytesT (proc_bytesT i p xs).1 (proc_bytesT i p xs).2.1 ys).1,
       (proc_bytesT (proc_bytesT i p xs).1 (proc_bytesT i p xs).2.1 ys).2.1,
       (proc_bytesT i p xs).2.2 ++
         (proc_bytesT (proc_bytesT i p xs).1 (proc_bytesT i p xs).2.1 ys).2.2) := by
  induction xs with
  | nil => intro i p; simp [proc_bytesT]
  | cons b xs ih =>
      intro i p
      simp only [List.cons_append, proc_bytesT]
      simp only [List.append_eq]
      rw [ih (step_byteT i p b).1 (step_byteT i p b).2.1]
      simp [List.append_assoc]

theorem procT_prefix_esc_bracket (Z : List Nat) :
    proc_bytesT .Empty [] (27 :: 91 :: Z) =
      ((proc_bytesT (.Csi CsiParser.new) [] Z).1,
       (proc_bytesT (.Csi CsiParser.new) [] Z).2.1,
       (proc_bytesT (.Csi CsiParser.new) [] Z).2.2) := rfl

theorem procT_params_accum (bs : List Nat) : ∀ (ps ints pend : List Nat),
    (∀ b ∈ bs, is_csi_param b = true) →
    proc_bytesT (.Csi ⟨.Params, ps, ints⟩) pend bs
      = (.Csi ⟨.Params, ps ++ bs, ints⟩, pend, []) := by
  induction bs with
  | nil => intro ps ints pend _; simp [proc_bytesT]
  | cons b rest ih =>
      intro ps ints pend hall
      have hb : is_csi_param b = true := hall b (by simp)
      have hstep : step_byteT (.Csi ⟨.Params, ps, ints⟩) pend b
          = (.Csi ⟨.Params, ps ++ [b], ints⟩, pend, []) := by
        unfold step_byteT step_byte
        dsimp only
        unfold CsiParser.push
        dsimp only
        rw [hb]
        rfl
      simp only [proc_bytesT]
      rw [hstep]
      rw [ih (ps ++ [b]) ints pend (fun x hx => hall x (by simp [hx]))]
      simp

theorem pushT_sgr_seq (body : List Nat) (hall : ∀ b ∈ body, is_csi_param b = true) :
    pushT .Empty (27 :: 91 :: (body ++ [109])) = handle_csi ⟨.Finished 109, body, []⟩ := by
  have h1 : proc_bytesT (.Csi CsiParser.new) [] body
      = (.Csi ⟨.Params, body, []⟩, [], []) := by
    have h := procT_params_accum body [] [] [] hall
    simpa [CsiParser.new] using h
  have h2 : step_byteT (.Csi ⟨.Params, body, []⟩) [] 109
      = ((handle_csi ⟨.Finished 109, body, []⟩).1, [],
         (handle_csi ⟨.Finished 109, body, []⟩).2) := rfl
  unfold pushT
  rw [procT_prefix_esc_bracket, proc_bytesT_append body [109] (.Csi CsiParser.new) [], h1]
  dsimp only
  simp only [proc_bytesT]
  rw [h2]
  simp [flush_ops]

theorem splitSep_ne_nil (sep : Nat) (ys : List Nat) : splitSep sep ys ≠ [] := by
  cases ys with
  | nil => simp [splitSep]
  | cons b rest =>
      simp only [splitSep]
      cases hr : splitSep sep rest with
      | nil => simp
      | cons h t => by_cases hb : b = sep <;> simp [hb]

theorem splitSep_no_sep (sep : Nat) (xs : List Nat) (h : sep ∉ xs) :
    splitSep sep xs = [xs] := by
  induction xs with
  | nil => rfl
  | cons b rest ih =>
      have hb : ¬(b = sep) := fun e => h (e ▸ List.mem_cons_self b rest)
      have hr : sep ∉ rest := fun hx => h (List.mem_cons_of_mem b hx)
      simp only [splitSep, ih hr]
      rw [if_neg hb]

theorem splitSep_append (sep : Nat) (xs ys : List Nat) (h : sep ∉ xs) :
    splitSep sep (xs ++ sep :: ys) = xs :: splitSep sep ys := by
  induction xs with
  | nil =>
      obtain ⟨hh, tt, he⟩ : ∃ hh tt, splitSep sep ys = hh :: tt := by
        cases hsp : splitSep sep ys with
        | nil => exact absurd hsp (splitSep_ne_nil sep ys)
        | cons a b => exact ⟨a, b, rfl⟩
      simp [splitSep, he]
  | cons b xs ih =>
      have hb : ¬(b = sep) := fun e => h (e ▸ List.mem_cons_self b xs)
      have hx : sep ∉ xs := fun hx => h (List.mem_cons_of_mem b hx)
      simp only [List.cons_append, splitSep]
      simp only [List.append_eq]
      rw [ih hx]
      dsimp only
      rw [if_neg hb]

theorem splitSep_joinSep (sep : Nat) (fields : List (List Nat)) (hne : fields ≠ [])
    (h : ∀ f ∈ fields, sep ∉ f) :
    splitSep sep (joinSep sep fields) = fields := by
  induction fields with
  | nil => exact absurd rfl hne
  | cons f rest ih =>
      cases rest with
      | nil => exact splitSep_no_sep sep f (h f (by simp))
      | cons g rs =>
          simp only [joinSep]
          rw [splitSep_append sep f (joinSep sep (g :: rs)) (h f (by simp))]
          rw [ih (by simp) (fun x hx => h x (by simp [hx]))]

theorem mapOption_eq_some_map {α β : Type} (f : α → Option β) (g : α → β) (l : List α)
    (h : ∀ a ∈ l, f a = some (g a)) : mapOption f l = some (l.map g) := by
  induction l with
  | nil => rfl
  | cons a rest ih =>
      simp only [mapOption, h a (by simp), ih (fun x hx => h x (by simp [hx])),
        List.map_cons]

theorem mapOption_has_none {α β : Type} (f : α → Option β) (l : List α)
    (h : ∃ a ∈ l, f a = none) : mapOption f l = none := by
  induction l with
  | nil => simp at h
  | cons a rest ih =>
      obtain ⟨x, hx, hfx⟩ := h
      simp only [mapOption]
      rcases List.mem_cons.mp hx with he | hm
      · subst he
        rw [hfx]
      · cases hfa : f a with
        | none => rfl
        | some v =>
            rw [ih ⟨x, hm, hfx⟩]

theorem mem_joinSep (sep : Nat) (fields : List (List Nat)) (b : Nat)
    (hb : b ∈ joinSep sep fields) : b = sep ∨ ∃ f ∈ fields, b ∈ f := by
  induction fields with
  | nil => simp [joinSep] at hb
  | cons f rest ih =>
      cases rest with
      | nil => exact Or.inr ⟨f, by simp, hb⟩
      | cons g rs =>
          simp only [joinSep] at hb
          rcases List.mem_append.mp hb with h1 | h2
          · exact Or.inr ⟨f, by simp, h1⟩
          · rcases List.mem_cons.mp h2 with he | hm
            · exact Or.inl he
            · rcases ih hm with h | ⟨f2, hf2, hbf2⟩
              · exact Or.inl h
              · exact Or.inr ⟨f2, by simp [hf2], hbf2⟩

theorem handle_csi_m_eq (ps : List Nat) :
    handle_csi ⟨.Finished 109, ps, []⟩ =
      (match split_params_into_semicolon_delimited_usize ps with
       | none => (.Empty, [.Invalid])
       | some params0 =>
          let params1 := if params0 = [] then [some 0] else params0
          let params2 := if params1 = [none] then [some 0] else params1
          (.Empty, params2.filterMap (fun p => p.map (fun v =>
             TerminalOutput.Sgr (SelectGraphicRendition.from_usize v))))) := rfl

theorem handle_csi_m_of_split_none (ps : List Nat)
    (h : split_params_into_semicolon_delimited_usize ps = none) :
    handle_csi ⟨.Finished 109, ps, []⟩ = (.Empty, [.Invalid]) := by
  rw [handle_csi_m_eq, h]

theorem handle_csi_m_of_split_some (ps : List Nat) (params0 : List (Option Nat))
    (h : split_params_into_semicolon_delimited_usize ps = some params0)
    (h1 : params0 ≠ []) (h2 : params0 ≠ [none]) :
    handle_csi ⟨.Finished 109, ps, []⟩ =
      (.Empty, params0.filterMap (fun p => p.map (fun v =>
         TerminalOutput.Sgr (SelectGraphicRendition.from_usize v)))) := by
  rw [handle_csi_m_eq, h]
  dsimp only
  rw [if_neg h1, if_neg h2]

/-- C5, amended: for CSI sequences terminated by m (written here as the
byte string ESC [ field1 ; field2 ; ... ; fieldN m): a single empty
parameter is treated as the value 0 (Reset); if every field parses, each
numeric field yields exactly one Sgr operation in order (unknown codes pass
through as Sgr (Unknown code)), while an empty field in a multi-field list
is skipped and yields nothing; if any field fails to parse the whole
sequence yields a single Invalid. -/
theorem c5_sgr_semantics :
    AnsiParser.push .Empty [27, 91, 109] = some (.Empty, [.Sgr .Reset]) ∧
    (∀ fields : List (List Nat),
      (∀ f ∈ fields, ∀ b ∈ f, is_csi_param b = true ∧ b ≠ 0x3b) →
      fields ≠ [] → fields ≠ [[]] →
      (∀ f ∈ fields, parse_param_as_usize f ≠ none) →
      AnsiParser.push .Empty (27 :: 91 :: (joinSep 0x3b fields ++ [109]))
        = some (.Empty, fields.filterMap (fun f =>
            if f = [] then none
            else some (.Sgr (.from_usize (decimal_value f)))))) ∧
    (∀ fields : List (List Nat),
      (∀ f ∈ fields, ∀ b ∈ f, is_csi_param b = true ∧ b ≠ 0x3b) →
      (∃ f ∈ fields, parse_param_as_usize f = none) →
      AnsiParser.push .Empty (27 :: 91 :: (joinSep 0x3b fields ++ [109]))
        = some (.Empty, [.Invalid])) := by
  refine ⟨by decide, ?_, ?_⟩
  · intro fields hcls hne hne2 hparse
    have hall : ∀ x ∈ joinSep 0x3b fields, is_csi_param x = true := by
      intro x hx
      rcases mem_joinSep 0x3b fields x hx with he | ⟨f, hf, hxf⟩
      · subst he; decide
      · exact (hcls f hf x hxf).1
    have hsplit : splitSep 0x3b (joinSep 0x3b fields) = fields :=
      splitSep_joinSep 0x3b fields hne (fun f hf hsep => (hcls f hf 0x3b hsep).2 rfl)
    have hmap : mapOption parse_param_as_usize fields
        = some (fields.map (fun f => if f = [] then none
                            else some (decimal_value f))) := by
      refine mapOption_eq_some_map _ _ fields (fun f hf => ?_)
      by_cases hf0 : f = []
      · subst hf0; rfl
      · have hp := hparse f hf
        unfold parse_param_as_usize at hp ⊢
        rw [if_neg hf0] at hp ⊢
        by_cases hc : f.all is_ascii_digit = true ∧ decimal_value f ≤ USIZE_MAX
        · rw [if_pos hc, if_neg hf0]
        · rw [if_neg hc] at hp
          exact absurd rfl hp
    have hsp : split_params_into_semicolon_delimited_usize (joinSep 0x3b fields)
        = some (fields.map (fun f => if f = [] then none
                            else some (decimal_value f))) := by
      unfold split_params_into_semicolon_delimited_usize
      rw [hsplit, hmap]
    have h1 : fields.map (fun f => if f = [] then none
        else some (decimal_value f)) ≠ [] := by
      intro he
      exact hne (List.map_eq_nil_iff.mp he)
    have h2 : fields.map (fun f => if f = [] then none
        else some (decimal_value f)) ≠ [none] := by
      intro he
      cases fields with
      | nil => simp at he
      | cons f0 rest =>
          cases rest with
          | nil =>
              simp only [List.map_cons, List.map_nil] at he
              have hg : (if f0 = [] then none else some (decimal_value f0)) = none :=
                (List.cons.inj he).1
              by_cases h0 : f0 = []
              · exact hne2 (by rw [h0])
              · rw [if_neg h0] at hg
                exact Option.noConfusion hg
          | cons f1 r2 => simp at he
    rw [ansi_push_eq_T _ .Empty trivial, pushT_sgr_seq _ hall,
        handle_csi_m_of_split_some _ _ hsp h1 h2]
    rw [List.filterMap_map]
    have hfe : ((fun p => Option.map
          (fun v => TerminalOutput.Sgr (SelectGraphicRendition.from_usize v)) p) ∘
          fun f => if f = [] then none else some (decimal_value f))
        = (fun f : List Nat => if f = [] then none
            else some (TerminalOutput.Sgr (SelectGraphicRendition.from_usize
              (decimal_value f)))) := by
      funext f
      by_cases hf0 : f = [] <;> simp [hf0, Function.comp]
    rw [hfe]
  · intro fields hcls hfail
    obtain ⟨f0, hf0m, hf0⟩ := hfail
    have hne : fields ≠ [] := List.ne_nil_of_mem hf0m
    have hall : ∀ x ∈ joinSep 0x3b fields, is_csi_param x = true := by
      intro x hx
      rcases mem_joinSep 0x3b fields x hx with he | ⟨f, hf, hxf⟩
      · subst he; decide
      · exact (hcls f hf x hxf).1
    have hsplit : splitSep 0x3b (joinSep 0x3b fields) = fields :=
      splitSep_joinSep 0x3b fields hne (fun f hf hsep => (hcls f hf 0x3b hsep).2 rfl)
    have hsp : split_params_into_semicolon_delimited_usize (joinSep 0x3b fields)
        = none := by
      unfold split_params_into_semicolon_delimited_usize
      rw [hsplit]
      exact mapOption_has_none _ fields ⟨f0, hf0m, hf0⟩
    rw [ansi_push_eq_T _ .Empty trivial, pushT_sgr_seq _ hall,
        handle_csi_m_of_split_none _ hsp]

/-- C5, witness: ESC [ 1 ; 3 1 m yields Sgr (Unknown 1) then Sgr Red, one
operation per numeric parameter; ESC [ : m (the non-digit parameter byte
0x3a) yields a single Invalid. -/
theorem c5_sgr_semantics_witness :
    AnsiParser.push .Empty (27 :: 91 :: (joinSep 0x3b [[49], [51, 49]] ++ [109]))
      = some (.Empty, [[49], [51, 49]].filterMap (fun f =>
          if f = [] then none
          else some (.Sgr (.from_usize (decimal_value f))))) ∧
    AnsiParser.push .Empty (27 :: 91 :: (joinSep 0x3b [[58]] ++ [109]))
      = some (.Empty, [.Invalid]) :=
  ⟨c5_sgr_semantics.2.1 [[49], [51, 49]] (by decide) (by decide) (by decide) (by decide),
   c5_sgr_semantics.2.2 [[58]] (by decide) ⟨[58], by decide, by decide⟩⟩

theorem flattenOps_append (a b : List TerminalOutput) :
    flattenOps (a ++ b) = flattenOps a ++ flattenOps b := by
  induction a with
  | nil => rfl
  | cons o rest ih => cases o <;> simp [flattenOps, ih, List.append_assoc]

theorem flattenOps_flush (p : List Nat) :
    flattenOps (flush_ops p) = p.map OutToken.byte := by
  unfold flush_ops
  by_cases hp : p = [] <;> simp [hp, flattenOps]

theorem procT_csi_pend_inv (bs : List Nat) : ∀ (i : AnsiParserInner) (p : List Nat),
    (∀ c, i = .Csi c → p = []) →
    (∀ c, (proc_bytesT i p bs).1 = .Csi c → (proc_bytesT i p bs).2.1 = []) := by
  induction bs with
  | nil => intro i p hH; simpa [proc_bytesT] using hH
  | cons b rest ih =>
      intro i p hH
      simp only [proc_bytesT]
      refine ih (step_byteT i p b).1 (step_byteT i p b).2.1 ?_
      cases i with
      | Empty =>
          by_cases hb : b = 27 <;>
            simp [step_byteT, step_byte, hb]
      | Escape =>
          by_cases hb : b = 91 <;>
            simp [step_byteT, step_byte, hb]
      | Csi c =>
          have hp : p = [] := hH c rfl
          subst hp
          intro c1 h1
          unfold step_byteT step_byte
          dsimp only
          cases hc : c.push b with
          | none => rfl
          | some c2 => rfl

theorem procT_pend_shift (bs : List Nat) : ∀ (i : AnsiParserInner) (p : List Nat),
    (∀ c, i = .Csi c → p = []) →
    (proc_bytesT i p bs).1 = (proc_bytesT i [] bs).1 ∧
    flattenOps (proc_bytesT i p bs).2.2 ++ (proc_bytesT i p bs).2.1.map OutToken.byte
      = p.map OutToken.byte ++ flattenOps (proc_bytesT i [] bs).2.2
        ++ (proc_bytesT i [] bs).2.1.map OutToken.byte := by
  induction bs with
  | nil =>
      intro i p hH
      simp [proc_bytesT, flattenOps]
  | cons b rest ih =>
      intro i p hH
      cases i with
      | Empty =>
          by_cases hb : b = 27
          · have hsp : step_byteT .Empty p b = (.Escape, p, []) := by
              unfold step_byteT step_byte
              rw [if_pos hb]
              rfl
            have hs0 : step_byteT .Empty [] b = (.Escape, [], []) := by
              unfold step_byteT step_byte
              rw [if_pos hb]
              rfl
            simp only [proc_bytesT, hsp, hs0, List.nil_append]
            exact ih .Escape p (fun c hc => by cases hc)
          · have hsp : step_byteT .Empty p b = (.Empty, p ++ [b], []) := by
              unfold step_byteT step_byte
              rw [if_neg hb]
              rfl
            have hs0 : step_byteT .Empty [] b = (.Empty, [b], []) := by
              unfold step_byteT step_byte
              rw [if_neg hb]
              rfl
            simp only [proc_bytesT, hsp, hs0, List.nil_append]
            obtain ⟨h1a, h2a⟩ := ih .Empty (p ++ [b]) (fun c hc => by cases hc)
            obtain ⟨h1b, h2b⟩ := ih .Empty [b] (fun c hc => by cases hc)
            refine ⟨h1a.trans h1b.symm, ?_⟩
            rw [h2a, List.map_append, List.append_assoc, List.append_assoc,
                List.append_assoc]
            congr 1
            exact h2b.symm
      | Escape =>
          have hflush : (if p = [] then ([] : List TerminalOutput) else [.Data p])
              = flush_ops p := rfl
          by_cases hb : b = 91
          · have hsp : step_byteT .Escape p b = (.Csi CsiParser.new, [], flush_ops p) := by
              unfold step_byteT step_byte
              dsimp only
              rw [if_pos hb, hflush]
              rfl
            have hs0 : step_byteT .Escape [] b = (.Csi CsiParser.new, [], []) := by
              unfold step_byteT step_byte
              dsimp only
              rw [if_pos hb]
              rfl
            simp only [proc_bytesT, hsp, hs0, List.nil_append]
            refine ⟨trivial, ?_⟩
            rw [flattenOps_append, flattenOps_flush]
          · have hsp : step_byteT .Escape p b = (.Empty, [], flush_ops p) := by
              unfold step_byteT step_byte
              dsimp only
              rw [if_neg hb, hflush]
              rfl
            have hs0 : step_byteT .Escape [] b = (.Empty, [], []) := by
              unfold step_byteT step_byte
              dsimp only
              rw [if_neg hb]
              rfl
            simp only [proc_bytesT, hsp, hs0, List.nil_append]
            refine ⟨trivial, ?_⟩
            rw [flattenOps_append, flattenOps_flush]
      | Csi c =>
          have hp : p = [] := hH c rfl
          subst hp
          exact ⟨rfl, by simp⟩

theorem pushT_fst (x : AnsiParserInner) (bytes : List Nat) :
    (pushT x bytes).1 = (proc_bytesT x [] bytes).1 := rfl

theorem flattenOps_pushT (x : AnsiParserInner) (bytes : List Nat) :
    flattenOps (pushT x bytes).2
      = flattenOps (proc_bytesT x [] bytes).2.2
        ++ (proc_bytesT x [] bytes).2.1.map OutToken.byte := by
  show flattenOps ((proc_bytesT x [] bytes).2.2
      ++ flush_ops (proc_bytesT x [] bytes).2.1) = _
  rw [flattenOps_append, flattenOps_flush]

theorem push_chunks_eq_T (chunks : List (List Nat)) : ∀ i : AnsiParserInner, goodInner i →
    push_chunks i chunks = some (push_chunksT i chunks) ∧
      goodInner (push_chunksT i chunks).1 := by
  induction chunks with
  | nil => intro i h; exact ⟨rfl, h⟩
  | cons c rest ih =>
      intro i h
      have hpush := ansi_push_eq_T c i h
      have hgood : goodInner (pushT i c).1 := by
        have hg := (proc_bytes_eq_T c i [] h).2
        rw [pushT_fst]
        exact hg
      obtain ⟨hrest, hg2⟩ := ih (pushT i c).1 hgood
      constructor
      · unfold push_chunks
        rw [hpush]
        dsimp only
        rw [hrest]
        rfl
      · simpa [push_chunksT] using hg2

theorem pushT_chunksT_flatten (chunks : List (List Nat)) : ∀ i : AnsiParserInner,
    (push_chunksT i chunks).1 = (pushT i chunks.flatten).1 ∧
    flattenOps (push_chunksT i chunks).2 = flattenOps (pushT i chunks.flatten).2 := by
  induction chunks with
  | nil => intro i; exact ⟨rfl, rfl⟩
  | cons c rest ih =>
      intro i
      have happ := proc_bytesT_append c rest.flatten i []
      have hinv := procT_csi_pend_inv c i [] (fun c2 hc => rfl)
      have hshift := procT_pend_shift rest.flatten (proc_bytesT i [] c).1
        (proc_bytesT i [] c).2.1 hinv
      obtain ⟨hih1, hih2⟩ := ih (pushT i c).1
      constructor
      · show (push_chunksT (pushT i c).1 rest).1 = (pushT i (c ++ rest.flatten)).1
        rw [hih1, pushT_fst, pushT_fst, pushT_fst]
        show (proc_bytesT (proc_bytesT i [] c).1 [] rest.flatten).1
            = (proc_bytesT i [] (c ++ rest.flatten)).1
        rw [happ]
        exact hshift.1.symm
      · show flattenOps ((pushT i c).2 ++ (push_chunksT (pushT i c).1 rest).2)
            = flattenOps (pushT i (c ++ rest.flatten)).2
        rw [flattenOps_append, hih2, flattenOps_pushT, flattenOps_pushT,
            flattenOps_pushT, pushT_fst, happ]
        dsimp only
        rw [flattenOps_append]
        simp only [List.append_assoc]
        have hs2 := hshift.2
        simp only [List.append_assoc] at hs2
        rw [hs2]

/-- C2, amended: for every byte stream and every way of splitting it into
consecutive chunks, feeding the chunks to a single AnsiParser via
successive push calls yields the same operations as pushing the whole
stream in one call, up to coalescing of adjacent Data operations: the
final parser states are identical and the flattened token streams (Data
operations exploded into their bytes) are identical.  The literal
operation lists can differ (`c2_split_data_ops_differ`). -/
theorem c2_chunking_preserves_flattened_ops (chunks : List (List Nat)) :
    ∃ rc rf, push_chunks .Empty chunks = some rc ∧
      AnsiParser.push .Empty chunks.flatten = some rf ∧
      rc.1 = rf.1 ∧ flattenOps rc.2 = flattenOps rf.2 := by
  obtain ⟨hc, _⟩ := push_chunks_eq_T chunks .Empty trivial
  have hf := ansi_push_eq_T chunks.flatten .Empty trivial
  exact ⟨_, _, hc, hf, (pushT_chunksT_flatten chunks .Empty).1,
    (pushT_chunksT_flatten chunks .Empty).2⟩

theorem ranges_overlap_iff (a b : Nat × Nat) :
    ranges_overlap a b = true ↔ (b.1 < a.2 ∧ a.1 < b.2) := by
  unfold ranges_overlap
  split_ifs with h1 h2 <;> simp <;> omega

theorem range_fully_conatins_iff (a b : Nat × Nat) :
    range_fully_conatins a b = true ↔ (a.1 ≤ b.1 ∧ b.2 ≤ a.2) := by
  simp [range_fully_conatins]

theorem range_starts_overlapping_iff (a b : Nat × Nat) :
    range_starts_overlapping a b = true ↔ (b.1 < a.1 ∧ b.2 < a.2) := by
  simp [range_starts_overlapping]

theorem adjust_overlap_some (t : ColorTag) (r : Nat × Nat)
    (hov : ranges_overlap (t.start, t.stop) r = true) :
    ∃ x, adjust_existing_color_range t r = some x := by
  unfold adjust_existing_color_range
  dsimp only
  by_cases h1 : range_fully_conatins r (t.start, t.stop) = true
  · rw [if_pos h1]
    exact ⟨_, rfl⟩
  rw [if_neg h1]
  by_cases h2 : range_fully_conatins (t.start, t.stop) r = true
  · rw [if_pos h2]
    exact ⟨_, rfl⟩
  rw [if_neg h2]
  by_cases h3 : range_starts_overlapping r (t.start, t.stop) = true
  · rw [if_pos h3]
    exact ⟨_, rfl⟩
  rw [if_neg h3]
  by_cases h4 : range_ends_overlapping r (t.start, t.stop) = true
  · rw [if_pos h4]
    exact ⟨_, rfl⟩
  exfalso
  rw [ranges_overlap_iff] at hov
  rw [show range_ends_overlapping r (t.start, t.stop)
        = range_starts_overlapping (t.start, t.stop) r from rfl] at h4
  simp only [range_fully_conatins_iff, range_starts_overlapping_iff] at h1 h2 h3 h4
  dsimp only at hov h1 h2 h3 h4
  omega

theorem adjust_step_some (r : Nat × Nat) (t : ColorTag) :
    ∃ x, adjust_step r t = some x := by
  unfold adjust_step
  by_cases hov : ranges_overlap (t.start, t.stop) r = true
  · rw [if_pos hov]
    exact adjust_overlap_some t r hov
  · rw [if_neg hov]
    exact ⟨_, rfl⟩

theorem zero_tag_survives (t : ColorTag) (r : Nat × Nat) (h0 : t.start = 0)
    (hr : 0 < r.1) :
    ∃ t2 adj, adjust_step r t = some (t2, adj) ∧ t2.start = 0 ∧
      adj.should_delete = false := by
  unfold adjust_step
  by_cases hov : ranges_overlap (t.start, t.stop) r = true
  · rw [if_pos hov]
    rw [ranges_overlap_iff] at hov
    unfold adjust_existing_color_range
    dsimp only
    by_cases h1 : range_fully_conatins r (t.start, t.stop) = true
    · exfalso
      rw [range_fully_conatins_iff] at h1
      dsimp only at h1
      omega
    rw [if_neg h1]
    by_cases h2 : range_fully_conatins (t.start, t.stop) r = true
    · rw [if_pos h2]
      refine ⟨_, _, rfl, h0, ?_⟩
      simp only [decide_eq_false_iff_not]
      omega
    rw [if_neg h2]
    by_cases h3 : range_starts_overlapping r (t.start, t.stop) = true
    · rw [if_pos h3]
      refine ⟨_, _, rfl, h0, ?_⟩
      simp only [decide_eq_false_iff_not]
      omega
    rw [if_neg h3]
    by_cases h4 : range_ends_overlapping r (t.start, t.stop) = true
    · exfalso
      rw [show range_ends_overlapping r (t.start, t.stop)
            = range_starts_overlapping (t.start, t.stop) r from rfl,
          range_starts_overlapping_iff] at h4
      dsimp only at h4
      omega
    · exfalso
      rw [show range_ends_overlapping r (t.start, t.stop)
            = range_starts_overlapping (t.start, t.stop) r from rfl] at h4
      simp only [range_fully_conatins_iff, range_starts_overlapping_iff] at h1 h2 h3 h4
      dsimp only at hov h1 h2 h3 h4
      omega
  · rw [if_neg hov]
    exact ⟨t, ⟨false, none⟩, rfl, h0, rfl⟩

theorem mapOption_total {α β : Type} (f : α → Option β) (l : List α)
    (h : ∀ a ∈ l, ∃ b, f a = some b) : ∃ rs, mapOption f l = some rs := by
  induction l with
  | nil => exact ⟨[], rfl⟩
  | cons a rest ih =>
      obtain ⟨b, hb⟩ := h a (by simp)
      obtain ⟨rs, hrs⟩ := ih (fun x hx => h x (by simp [hx]))
      exact ⟨b :: rs, by simp only [mapOption, hb, hrs]⟩

theorem mapOption_mem {α β : Type} (f : α → Option β) (l : List α) (rs : List β)
    (h : mapOption f l = some rs) : ∀ a ∈ l, ∃ b ∈ rs, f a = some b := by
  induction l generalizing rs with
  | nil => intro a ha; simp at ha
  | cons x rest ih =>
      intro a ha
      simp only [mapOption] at h
      cases hfx : f x with
      | none => rw [hfx] at h; exact absurd h (by simp)
      | some bx =>
          rw [hfx] at h
          cases hrest : mapOption f rest with
          | none => rw [hrest] at h; exact absurd h (by simp)
          | some brest =>
              rw [hrest] at h
              have hrs : rs = bx :: brest := by
                cases h; rfl
              subst hrs
              rcases List.mem_cons.mp ha with he | hm
              · exact ⟨bx, by simp, he ▸ hfx⟩
              · obtain ⟨b, hbm, hfb⟩ := ih brest hrest a hm
                exact ⟨b, by simp [hbm], hfb⟩

theorem push_range_preserves (ct : ColorTracker) (color : TerminalColor) (r : Nat × Nat)
    (hinv : ∃ t ∈ ct.color_info, t.start = 0) :
    ∃ ct2, ct.push_range color r = some ct2 ∧
      (∃ t ∈ ct2.color_info, t.start = 0) ∧
      ct2.color_info ≠ [] ∧ List.Sorted tagLE ct2.color_info := by
  obtain ⟨results, hres⟩ := mapOption_total (adjust_step r) ct.color_info
    (fun t _ => adjust_step_some r t)
  have hadj : adjust_existing_color_ranges ct.color_info r
      = some ((results.filterMap fun p => if p.2.should_delete then none else some p.1)
        ++ results.filterMap fun p => p.2.to_insert) := by
    unfold adjust_existing_color_ranges
    rw [hres]
  have hpush : ct.push_range color r
      = some ⟨List.insertionSort tagLE
          (((results.filterMap fun p => if p.2.should_delete then none else some p.1)
            ++ results.filterMap fun p => p.2.to_insert)
           ++ [⟨r.1, r.2, color⟩])⟩ := by
    unfold ColorTracker.push_range
    rw [hadj]
  refine ⟨_, hpush, ?_, ?_, List.sorted_insertionSort tagLE _⟩
  · -- a tag with start 0 survives into the sorted list
    have hperm := List.perm_insertionSort tagLE
      (((results.filterMap fun p => if p.2.should_delete then none else some p.1)
        ++ results.filterMap fun p => p.2.to_insert) ++ [⟨r.1, r.2, color⟩])
    by_cases hr0 : r.1 = 0
    · refine ⟨⟨r.1, r.2, color⟩, ?_, hr0⟩
      exact hperm.mem_iff.mpr (by simp)
    · obtain ⟨t0, ht0m, ht00⟩ := hinv
      obtain ⟨t2, adj, hstep, ht20, hdel⟩ :=
        zero_tag_survives t0 r ht00 (Nat.pos_of_ne_zero hr0)
      obtain ⟨b, hbm, hfb⟩ := mapOption_mem (adjust_step r) ct.color_info results hres t0 ht0m
      have hb2 : b = (t2, adj) := by
        rw [hstep] at hfb
        exact (Option.some.inj hfb).symm
      subst hb2
      refine ⟨t2, ?_, ht20⟩
      refine hperm.mem_iff.mpr ?_
      refine List.mem_append_left _ (List.mem_append_left _ ?_)
      exact List.mem_filterMap.mpr ⟨(t2, adj), hbm, by simp [hdel]⟩
  · -- nonempty: the list is a permutation of one ending in the new tag
    have hperm := List.perm_insertionSort tagLE
      (((results.filterMap fun p => if p.2.should_delete then none else some p.1)
        ++ results.filterMap fun p => p.2.to_insert) ++ [⟨r.1, r.2, color⟩])
    intro hnil
    dsimp only at hnil
    have : (⟨r.1, r.2, color⟩ : ColorTag)
        ∈ List.insertionSort tagLE
          (((results.filterMap fun p => if p.2.should_delete then none else some p.1)
            ++ results.filterMap fun p => p.2.to_insert) ++ [⟨r.1, r.2, color⟩]) :=
      hperm.mem_iff.mpr (by simp)
    rw [hnil] at this
    simp at this

theorem run_pushes_inv (pushes : List (TerminalColor × Nat × Nat)) :
    ∀ ct : ColorTracker,
      (∃ t ∈ ct.color_info, t.start = 0) → ct.color_info ≠ [] →
      List.Sorted tagLE ct.color_info →
      ∃ ct2, run_pushes ct pushes = some ct2 ∧
        (∃ t ∈ ct2.color_info, t.start = 0) ∧ ct2.color_info ≠ [] ∧
        List.Sorted tagLE ct2.color_info := by
  induction pushes with
  | nil => intro ct h0 hne hs; exact ⟨ct, rfl, h0, hne, hs⟩
  | cons p rest ih =>
      intro ct h0 hne hs
      obtain ⟨ct1, hp1, h01, hne1, hs1⟩ := push_range_preserves ct p.1 p.2 h0
      obtain ⟨ct2, hp2, h02, hne2, hs2⟩ := ih ct1 h01 hne1 hs1
      refine ⟨ct2, ?_, h02, hne2, hs2⟩
      unfold run_pushes
      rw [hp1]
      exact hp2

theorem colorsAux_covers (t : ColorTag) (rest : List ColorTag) :
    coversFrom t.start (colorsAux (t :: rest)) := by
  induction rest generalizing t with
  | nil => exact ⟨rfl, rfl⟩
  | cons u rs ih =>
      cases rs with
      | nil => exact ⟨rfl, rfl, rfl⟩
      | cons v vs => exact ⟨rfl, ih u⟩

theorem sorted_head_zero (l : List ColorTag) (hs : List.Sorted tagLE l)
    (h0 : ∃ t ∈ l, t.start = 0) (hne : l ≠ []) :
    ∃ hd tl, l = hd :: tl ∧ hd.start = 0 := by
  cases l with
  | nil => exact absurd rfl hne
  | cons hd tl =>
      refine ⟨hd, tl, rfl, ?_⟩
      obtain ⟨t, htm, ht0⟩ := h0
      rcases List.mem_cons.mp htm with he | hm
      · rw [← he]
        exact ht0
      · have hle : tagLE hd t := (List.sorted_cons.mp hs).1 t hm
        unfold tagLE at hle
        omega

/-- C7: a freshly constructed tracker holds exactly one tag, 0 to MAX with
color Default; and after any sequence of push_range calls the tracker
state is well defined (no push hits the unhandled-overlap panic), its
stored tags are sorted by start, and colors() is a gapless cover of
[0, usize::MAX): the first range starts at 0, every range's end is the
next range's start, and the last range ends at usize::MAX. -/
theorem c7_tracker_invariant (pushes : List (TerminalColor × Nat × Nat)) :
    ColorTracker.new.color_info = [⟨0, USIZE_MAX, .Default⟩] ∧
    ∃ ct, run_pushes ColorTracker.new pushes = some ct ∧
      List.Sorted tagLE ct.color_info ∧ ct.color_info ≠ [] ∧
      coversFrom 0 ct.colors := by
  refine ⟨rfl, ?_⟩
  obtain ⟨ct, hrun, hmem, hne, hsort⟩ :=
    run_pushes_inv pushes ColorTracker.new
      ⟨⟨0, USIZE_MAX, .Default⟩, by simp [ColorTracker.new], rfl⟩
      (by simp [ColorTracker.new]) (by simp [ColorTracker.new])
  obtain ⟨hd, tl, hl, h0⟩ := sorted_head_zero ct.color_info hsort hmem hne
  refine ⟨ct, hrun, hsort, hne, ?_⟩
  unfold ColorTracker.colors
  rw [hl]
  have hc := colorsAux_covers hd tl
  rw [h0] at hc
  exact hc
